import Mathlib

/-!
Verification development for the `aiterm` repository.

Shallow embedding of the core algorithms:
* `chunk_text` — the sliding-window chunker of `src/rag.rs`;
* a UTF-8 byte-level model of the same chunker, capturing the panic
  behaviour of Rust string slicing at non-character boundaries;
* `cos_sim` and `RagStore::search` — the retrieval store of `src/rag.rs`;
* the brace-counting stream decoder of `src/vendors/gemini.rs`;
* the round-robin conversation loop `run_converse` of `src/main.rs`.

Rust strings are modelled as `List Char` (every index the Rust code
computes on its buffers is a character boundary, except where the byte
model below says otherwise); machine integers are modelled as `Nat`;
fallible operations return `Option` or `Except`.  Loops whose progress
argument is `overlap < max_size` (resp. consumed buffer bytes) are given
explicit fuel; every use supplies fuel at least the number of iterations,
as the accompanying lemmas prove.
-/

namespace Aiterm

/-! Section: Chunker (src/rag.rs, `chunk_text`) -/

/-- The `while start < text.len()` loop of `chunk_text` (src/rag.rs:146-156).
Each iteration pushes `text[start..end]` with `end = min(start+max_size, len)`;
it breaks when `end == len`, otherwise advances `start += max_size - overlap`.
The extra `fuel` argument makes the recursion structural; since the step is
positive whenever `overlap < maxSize`, fuel `text.length + 1` is never
exhausted (the `fuel = 0` branch is unreachable under that precondition).
The constant `source` tag attached to every produced chunk is omitted: it
does not participate in any property of the chunk texts.

Granularity: this is the index arithmetic of the loop over an abstract
item sequence.  The Rust code runs it over the *bytes* of a `String`
(`text.len()` and `text[start..end]` are byte-based) and panics when a
window boundary falls inside a multi-byte character; `chunkUtf8Loop` below
is the byte-faithful model with that panic path, and the two agree exactly
on texts of single-byte characters (proved below), where byte offsets and
character offsets coincide. -/
def chunkLoop (text : List α) (maxSize overlap : Nat) : Nat → Nat → List (List α)
  | _start, 0 => []
  | start, fuel + 1 =>
    if start < text.length then
      (text.drop start).take (min (start + maxSize) text.length - start) ::
        (if min (start + maxSize) text.length = text.length then []
         else chunkLoop text maxSize overlap (start + (maxSize - overlap)) fuel)
    else []

/-- Model of `chunk_text` (src/rag.rs:137-158): one chunk equal to the whole
text when `text.len() <= max_size`, otherwise the sliding-window loop from
position 0.  Same granularity caveat as `chunkLoop`: the program measures
lengths and offsets in bytes and can panic on multi-byte characters; the
byte-faithful model of the program is `chunk_text_utf8` below, which equals
`some` of this function exactly on single-byte-character texts. -/
def chunk_text (text : List α) (maxSize overlap : Nat) : List (List α) :=
  if text.length ≤ maxSize then [text]
  else chunkLoop text maxSize overlap 0 (text.length + 1)

/-! Section: UTF-8 byte-level model of the chunker

`chunk_text` indexes `text` with *byte* offsets (`text.len()`,
`text[start..end]` in Rust are byte-based).  Rust panics when a slice
boundary falls inside a multi-byte character.  The following model keeps the
text as a list of characters but performs the slicing at byte offsets,
returning `none` exactly when Rust would panic. -/

/-- Byte length of a character list under UTF-8, i.e. Rust's `text.len()`. -/
def utf8Len (l : List Char) : Nat := (l.map Char.utf8Size).sum

/-- Take the first `n` *bytes* of a character list; `none` when `n` is not a
character boundary (Rust: slice panic). -/
def byteTake : List Char → Nat → Option (List Char)
  | _, 0 => some []
  | [], _ + 1 => none
  | c :: rest, n + 1 =>
    if c.utf8Size ≤ n + 1 then
      (byteTake rest (n + 1 - c.utf8Size)).map (fun l => c :: l)
    else none

/-- Drop the first `n` *bytes* of a character list; `none` when `n` is not a
character boundary (Rust: slice panic). -/
def byteDrop : List Char → Nat → Option (List Char)
  | l, 0 => some l
  | [], _ + 1 => none
  | c :: rest, n + 1 =>
    if c.utf8Size ≤ n + 1 then byteDrop rest (n + 1 - c.utf8Size) else none

/-- Rust's `&text[s..e]` on a string: `none` when `s` or `e` is not a
character boundary. -/
def byteSlice (l : List Char) (s e : Nat) : Option (List Char) :=
  (byteDrop l s).bind (fun l2 => byteTake l2 (e - s))

/-- Byte-faithful version of the `chunk_text` loop: positions `start`/`end`
are byte offsets exactly as in the Rust code, and the slice is `byteSlice`,
so the result is `none` exactly when Rust panics on a slice boundary inside
a multi-byte character. -/
def chunkUtf8Loop (text : List Char) (maxSize overlap : Nat) : Nat → Nat → Option (List (List Char))
  | _start, 0 => some []
  | start, fuel + 1 =>
    if start < utf8Len text then
      match byteSlice text start (min (start + maxSize) (utf8Len text)) with
      | none => none
      | some c =>
        if min (start + maxSize) (utf8Len text) = utf8Len text then some [c]
        else (chunkUtf8Loop text maxSize overlap (start + (maxSize - overlap)) fuel).map
          (fun cs => c :: cs)
    else some []

/-- Byte-faithful `chunk_text`: `none` models the Rust panic on slicing at a
non-character boundary. -/
def chunk_text_utf8 (text : List Char) (maxSize overlap : Nat) : Option (List (List Char)) :=
  if utf8Len text ≤ maxSize then some [text]
  else chunkUtf8Loop text maxSize overlap 0 (utf8Len text + 1)

/-! Section: Stream decoder (src/vendors/gemini.rs, `ask_stream`)

The decoder is parametric in `parse : List Char → Option String`, which
models `serde_json::from_str::<ResponseBody>` followed by
`.candidates.first().and_then(|c| c.content.parts.first()).map(|p| p.text)`:
`none` covers both a parse failure and a parsed envelope without a first
candidate/part — in the code both lead to the same observable behaviour
(no delta emitted, slice discarded).  The external JSON parser itself is an
out-of-scope collaborator. -/

/-- The opening brace character, by code point. -/
def lbrace : Char := Char.ofNat 123

/-- The closing brace character, by code point. -/
def rbrace : Char := Char.ofNat 125

/-- Depth change contributed by one character in the brace scan of
`ask_stream` (gemini.rs:117-118): `+1` for an opening brace, `-1` for a
closing brace. -/
def braceDelta (c : Char) : Int :=
  (if c = lbrace then 1 else 0) - (if c = rbrace then 1 else 0)

/-- The brace-depth scan of `ask_stream` (gemini.rs:116-123): walk the
characters accumulating the depth, and return the exclusive end offset
`i + 1` at the first character where the depth returns to zero, `none` when
the buffer is exhausted first.  The scan starts at the first found opening
brace with depth 0, so the first step raises the depth to 1.  The known
limitation that braces inside quoted JSON strings are counted like
structural braces is inherited faithfully. -/
def scanBalance : List Char → Int → Nat → Option Nat
  | [], _, _ => none
  | c :: rest, openBr, i =>
    if openBr + braceDelta c = 0 then some (i + 1)
    else scanBalance rest (openBr + braceDelta c) (i + 1)

/-- Model of the call finding the first opening brace in the buffer (gemini.rs:112). -/
def findLbrace : List Char → Option Nat
  | [] => none
  | c :: rest => if c = lbrace then some 0 else (findLbrace rest).map (· + 1)

/-- The inner `loop` of `ask_stream` (gemini.rs:111-135) on the accumulated
buffer: find the first opening brace (`none`: clear the buffer and stop);
scan for the balancing close (`none`: keep the buffer and await more input);
otherwise extract the slice `buffer[start..start+len]`, emit its parsed text
when present and non-empty, drain the buffer through the consumed object,
and continue.  Fuel makes the recursion structural; every iteration drains
at least one character, so the fuel `buffer.length + 1` supplied by all
callers is never exhausted (proved as fuel-irrelevance below).  Returns the
emitted deltas in order and the remaining buffer. -/
def processBuffer (parse : List Char → Option String) : List Char → Nat → List String × List Char
  | buffer, 0 => ([], buffer)
  | buffer, fuel + 1 =>
    match findLbrace buffer with
    | none => ([], [])
    | some start =>
      match scanBalance (buffer.drop start) 0 0 with
      | none => ([], buffer)
      | some len =>
        match parse ((buffer.drop start).take len) with
        | some t =>
          if t ≠ "" then
            (t :: (processBuffer parse (buffer.drop (start + len)) fuel).1,
              (processBuffer parse (buffer.drop (start + len)) fuel).2)
          else processBuffer parse (buffer.drop (start + len)) fuel
        | none => processBuffer parse (buffer.drop (start + len)) fuel

/-- Deltas emitted for one extracted object slice: the parsed text if
present and non-empty (gemini.rs:127-130). -/
def emitOf : Option String → List String
  | some t => if t ≠ "" then [t] else []
  | none => []

/-- The outer fragment loop of `ask_stream` (gemini.rs:107-136) specialised
to fragments with no transport errors: append each arriving fragment to the
buffer, run the inner loop, and emit its deltas in order.  The buffer left
when the fragment list ends is dropped (closing semantics: the stream just
ends). -/
def feedAll (parse : List Char → Option String) : List Char → List (List Char) → List String
  | _buf, [] => []
  | buf, f :: rest =>
    ((processBuffer parse (buf ++ f) ((buf ++ f).length + 1)).1)
      ++ feedAll parse (processBuffer parse (buf ++ f) ((buf ++ f).length + 1)).2 rest

/-- Decode a whole fragment stream from an initially empty buffer. -/
def decodeStream (parse : List Char → Option String) (frags : List (List Char)) : List String :=
  feedAll parse [] frags

/-- Net brace depth of a character list. -/
def depthSum (l : List Char) : Int := (l.map braceDelta).sum

/-- A well-formed object for the brace-counting decoder: non-empty, starts
with an opening brace, net depth zero, and every proper non-empty prefix has
positive depth — i.e. the scan balances exactly at the end of the object. -/
def IsBalancedObject (w : List Char) : Prop :=
  w ≠ [] ∧ w.head? = some lbrace ∧ depthSum w = 0 ∧
    ∀ k : Nat, k < w.length → 0 < k → 0 < depthSum (w.take k)

/-- A truncated object: starts with an opening brace and never balances. -/
def IsTruncatedObject (w : List Char) : Prop :=
  w ≠ [] ∧ w.head? = some lbrace ∧
    ∀ k : Nat, k ≤ w.length → 0 < k → 0 < depthSum (w.take k)

instance (w : List Char) : Decidable (IsBalancedObject w) := by
  unfold IsBalancedObject
  exact inferInstance

instance (u : List Char) : Decidable (IsTruncatedObject u) := by
  unfold IsTruncatedObject
  exact inferInstance

/-! Section: Byte-level transport model of the decoder

`ask_stream` receives raw byte chunks and appends
`String::from_utf8_lossy(&chunk)` to its buffer (gemini.rs:109).  A
multi-byte character split across two chunks is therefore decoded lossily
into replacement characters.  The following model keeps the bytes. -/

/-- Replacement character U+FFFD produced by lossy UTF-8 decoding. -/
def replacementChar : Char := Char.ofNat 0xFFFD

/-- Lower bound of the valid range for the first continuation byte after
lead byte `b` (UTF-8 shortest-form/surrogate exclusion table). -/
def contLo (b : Nat) : Nat := if b = 0xE0 then 0xA0 else if b = 0xF0 then 0x90 else 0x80

/-- Upper bound of the valid range for the first continuation byte after
lead byte `b`. -/
def contHi (b : Nat) : Nat := if b = 0xED then 0x9F else if b = 0xF4 then 0x8F else 0xBF

/-- Rust's `String::from_utf8_lossy` on a byte list (bytes as `Nat`),
following the "substitution of maximal subparts" policy Rust implements:
each maximal prefix of a valid sequence that cannot be completed is replaced
by a single U+FFFD, and decoding resumes at the offending byte.  Fuel makes
the recursion structural; each step consumes at least one byte, so fuel
`bytes.length` suffices. -/
def utf8LossyGo : List Nat → Nat → List Char
  | _, 0 => []
  | [], _ + 1 => []
  | b :: rest, fuel + 1 =>
    if b ≤ 0x7F then Char.ofNat b :: utf8LossyGo rest fuel
    else if b < 0xC2 then replacementChar :: utf8LossyGo rest fuel
    else if b ≤ 0xDF then
      match rest with
      | [] => [replacementChar]
      | b2 :: rest2 =>
        if 0x80 ≤ b2 ∧ b2 ≤ 0xBF then
          Char.ofNat ((b - 0xC0) * 64 + (b2 - 0x80)) :: utf8LossyGo rest2 fuel
        else replacementChar :: utf8LossyGo rest fuel
    else if b ≤ 0xEF then
      match rest with
      | [] => [replacementChar]
      | b2 :: rest2 =>
        if contLo b ≤ b2 ∧ b2 ≤ contHi b then
          match rest2 with
          | [] => [replacementChar]
          | b3 :: rest3 =>
            if 0x80 ≤ b3 ∧ b3 ≤ 0xBF then
              Char.ofNat (((b - 0xE0) * 64 + (b2 - 0x80)) * 64 + (b3 - 0x80))
                :: utf8LossyGo rest3 fuel
            else replacementChar :: utf8LossyGo rest2 fuel
        else replacementChar :: utf8LossyGo rest fuel
    else if b ≤ 0xF4 then
      match rest with
      | [] => [replacementChar]
      | b2 :: rest2 =>
        if contLo b ≤ b2 ∧ b2 ≤ contHi b then
          match rest2 with
          | [] => [replacementChar]
          | b3 :: rest3 =>
            if 0x80 ≤ b3 ∧ b3 ≤ 0xBF then
              match rest3 with
              | [] => [replacementChar]
              | b4 :: rest4 =>
                if 0x80 ≤ b4 ∧ b4 ≤ 0xBF then
                  Char.ofNat ((((b - 0xF0) * 64 + (b2 - 0x80)) * 64 + (b3 - 0x80)) * 64
                      + (b4 - 0x80))
                    :: utf8LossyGo rest4 fuel
                else replacementChar :: utf8LossyGo rest3 fuel
            else replacementChar :: utf8LossyGo rest2 fuel
        else replacementChar :: utf8LossyGo rest fuel
    else replacementChar :: utf8LossyGo rest fuel

/-- Entry point of the lossy decoder. -/
def utf8Lossy (bytes : List Nat) : List Char := utf8LossyGo bytes bytes.length

/-- The fragment loop of `ask_stream` at the transport level: each arriving
byte chunk is decoded with `String::from_utf8_lossy` and appended to the
character buffer (gemini.rs:109), then the inner loop runs as before. -/
def feedAllBytes (parse : List Char → Option String) : List Char → List (List Nat) → List String
  | _buf, [] => []
  | buf, f :: rest =>
    ((processBuffer parse (buf ++ utf8Lossy f) ((buf ++ utf8Lossy f).length + 1)).1)
      ++ feedAllBytes parse (processBuffer parse (buf ++ utf8Lossy f)
          ((buf ++ utf8Lossy f).length + 1)).2 rest

/-- Decode a whole byte-chunk stream from an initially empty buffer. -/
def decodeByteStream (parse : List Char → Option String) (frags : List (List Nat)) : List String :=
  feedAllBytes parse [] frags

/-- Concrete parse function for the byte-split counterexample, modelling the
JSON extraction on the two slices that actually occur: the intact object
containing the character é, and the same object after é was split across
two fragments and lossily decoded into two replacement characters. -/
def parseLossyCex (s : List Char) : Option String :=
  if s = [lbrace, 'é', rbrace] then some "é"
  else if s = [lbrace, replacementChar, replacementChar, rbrace] then
    some (String.mk [replacementChar, replacementChar])
  else none

/-- Concrete parse function for decoder witnesses: recognises the two
"valid" test objects and fails on everything else. -/
def parseCex (s : List Char) : Option String :=
  if s = [lbrace, 'a', rbrace] then some "A"
  else if s = [lbrace, 'b', rbrace] then some "B"
  else none

/-! Section: `ask` and `ask_stream` (src/vendors/gemini.rs)

The transport is abstracted as the list of results the byte stream yields:
each arriving `chunk_result` is either a byte fragment or a transport error.
`ask_stream`'s HTTP setup (POST, status check) is abstracted as an `Except`
supplying that list or failing first. -/

/-- The fragment loop of `ask_stream` with transport results
(gemini.rs:107-136): `let chunk = chunk_result?` inside `try_stream!`
re-yields a transport error as a stream item and terminates the stream;
an ok fragment is appended to the buffer and decoded as above. -/
def streamItems (parse : List Char → Option String) :
    List Char → List (Except String (List Char)) → List (Except String String)
  | _buf, [] => []
  | _buf, Except.error e :: _ => [Except.error e]
  | buf, Except.ok f :: rest =>
    ((processBuffer parse (buf ++ f) ((buf ++ f).length + 1)).1.map Except.ok)
      ++ streamItems parse (processBuffer parse (buf ++ f) ((buf ++ f).length + 1)).2 rest

/-- Model of `ask_stream` (gemini.rs:72-140): the HTTP setup may fail before any
streaming (request error or non-success status, gemini.rs:95-101); on
success the result is the decoded item stream. -/
def ask_stream (parse : List Char → Option String)
    (setup : Except String (List (Except String (List Char)))) :
    Except String (List (Except String String)) :=
  match setup with
  | Except.error e => Except.error e
  | Except.ok chunks => Except.ok (streamItems parse [] chunks)

/-- The accumulation loop of `ask` (gemini.rs:61-68): concatenate the ok
chunks in order into `full_response`; return the first errored chunk. -/
def collectResponse : String → List (Except String String) → Except String String
  | acc, [] => Except.ok acc
  | _acc, Except.error e :: _ => Except.error e
  | acc, Except.ok s :: rest => collectResponse (acc ++ s) rest

/-- Model of `ask` (gemini.rs:56-70): run `ask_stream` on the same messages (here:
the same transport), propagate its setup error, otherwise fold the stream. -/
def ask (parse : List Char → Option String)
    (setup : Except String (List (Except String (List Char)))) : Except String String :=
  match ask_stream parse setup with
  | Except.error e => Except.error e
  | Except.ok items => collectResponse "" items

/-! Section: Retrieval store (src/rag.rs) -/

/-- Structure `TextChunk` (rag.rs:37-41): a piece of text from a file. -/
structure TextChunk where
  source : String
  text : String
deriving DecidableEq, Inhabited

/-- Model of `cos_sim` (rag.rs:218-226): `dot(a,b) / (|a|·|b|)` with the zipped
pairwise products, and result exactly 0 when either norm is zero (the Rust
guard `norm_a == 0.0 || norm_b == 0.0`).  The `f32` arithmetic is modelled
over `ℝ`; the guard and the algebraic properties at issue are preserved by
this abstraction. -/
noncomputable def cos_sim (a b : List ℝ) : ℝ :=
  if Real.sqrt ((a.map (fun x => x ^ 2)).sum) = 0 ∨
      Real.sqrt ((b.map (fun x => x ^ 2)).sum) = 0 then 0
  else ((a.zip b).map (fun p => p.1 * p.2)).sum
    / (Real.sqrt ((a.map (fun x => x ^ 2)).sum) * Real.sqrt ((b.map (fun x => x ^ 2)).sum))

/-- The `scored_chunks` list of `search` before sorting (rag.rs:88-96):
similarity of the query embedding to each stored embedding, zipped with the
chunks in store (insertion) order. -/
noncomputable def scoredChunks (embeddings : List (List ℝ)) (chunks : List TextChunk)
    (queryEmb : List ℝ) : List (ℝ × TextChunk) :=
  (embeddings.zip chunks).map (fun p => (cos_sim queryEmb p.1, p.2))

/-- The sort of `search` (rag.rs:98):
`sort_by(|a, b| b.0.partial_cmp(&a.0).unwrap_or(Equal))` is Rust's *stable*
sort under the descending-score comparator; over `ℝ` (no NaN) this is the
stable sort under the total preorder "later score ≤ earlier score",
modelled by Mathlib's stable insertion sort under that relation. -/
noncomputable def searchScored (embeddings : List (List ℝ)) (chunks : List TextChunk)
    (queryEmb : List ℝ) : List (ℝ × TextChunk) :=
  List.insertionSort (fun x y => y.1 ≤ x.1) (scoredChunks embeddings chunks queryEmb)

instance : IsTotal (ℝ × TextChunk) (fun x y => y.1 ≤ x.1) :=
  ⟨fun a b => le_total b.1 a.1⟩

instance : IsTrans (ℝ × TextChunk) (fun x y => y.1 ≤ x.1) :=
  ⟨fun _ _ _ h1 h2 => le_trans h2 h1⟩

/-- Snippet formatting of `search` (rag.rs:103). -/
def formatSnippet (c : TextChunk) : String :=
  "---\nSource: " ++ c.source ++ "\n```\n" ++ c.text ++ "\n```\n"

/-- Model of `RagStore::search` (rag.rs:80-107) with the query embedding already
obtained from the embedder boundary (rag.rs:84-86, a single-item batch):
empty-store short-cut returning `Ok(vec![])` before any embedding call,
otherwise score every stored embedding, stable-sort descending, take
`top_k`, format.  Total at this level: no error case exists. -/
noncomputable def search (embeddings : List (List ℝ)) (chunks : List TextChunk)
    (queryEmb : List ℝ) (topK : Nat) : List String :=
  if chunks.isEmpty then []
  else ((searchScored embeddings chunks queryEmb).take topK).map (fun p => formatSnippet p.2)

/-- Read-only access: `search` takes `&self` (a shared borrow), so the store it ran on is
unchanged afterwards, modelled by explicit state passing. -/
noncomputable def searchSt (store : List (List ℝ) × List TextChunk) (queryEmb : List ℝ)
    (topK : Nat) : List String × (List (List ℝ) × List TextChunk) :=
  (search store.1 store.2 queryEmb topK, store)

/-- The chunk list built by `RagStore::new` via `load_and_chunk_files`
(rag.rs:109-134), with document discovery abstracted as the list of
(path, contents) pairs found: every document is chunked with the fixed
constants MAX_CHUNK_SIZE = 2000 and CHUNK_OVERLAP = 200 (rag.rs:110-111),
each chunk tagged with its source path, in discovery order. -/
def ragStoreChunks (docs : List (String × String)) : List TextChunk :=
  (docs.map (fun d =>
    (chunk_text d.2.toList 2000 200).map (fun t => TextChunk.mk d.1 (String.mk t)))).flatten

/-- Model of `RagStore::new` (rag.rs:52-78) with the embedder boundary abstracted as
`embedBatch` (one all-or-nothing batched call, rag.rs:69): an empty chunk
list builds an empty store without touching the embedder; otherwise all
chunk texts are embedded in one batch, and a batch failure fails the build. -/
def ragStoreNew (embedBatch : List String → Except String (List (List ℝ)))
    (docs : List (String × String)) : Except String (List TextChunk × List (List ℝ)) :=
  if (ragStoreChunks docs).isEmpty then Except.ok (ragStoreChunks docs, [])
  else (embedBatch ((ragStoreChunks docs).map (fun c => c.text))).map
    (fun es => (ragStoreChunks docs, es))

/-- Concrete embedder for the store-invariant witness: one constant vector
per input text (index-aligned, as the service contract specifies). -/
noncomputable def embedConst (ts : List String) : Except String (List (List ℝ)) :=
  Except.ok (ts.map (fun _ => [0]))

/-! Section: Conversation orchestrator (src/main.rs, `run_converse`) -/

/-- An agent of `run_converse` (main.rs:67-71): persona name and system
prompt, the optional retrieval store abstracted as a search function on the
current history text (`none`: persona has no context paths), and the model
abstracted as the full streamed-and-concatenated response to a prompt
(errors of the model call or of any mid-stream delta surface as
`Except.error`). -/
structure AgentM where
  name : String
  systemPrompt : String
  retrieve : Option (String → Except String (List String))
  respond : String → Except String String

instance : Inhabited AgentM := ⟨⟨"", "", none, fun _ => Except.error ""⟩⟩

/-- Per-turn context block (main.rs:203-212): search the agent's store with
the current full history; non-empty results are joined and framed, an empty
result contributes the empty string. -/
def contextStr (a : AgentM) (hist : String) : Except String String :=
  match a.retrieve with
  | none => Except.ok ""
  | some r =>
    (r hist).map (fun cks =>
      if cks.isEmpty then "" else "CONTEXT:\n" ++ String.intercalate "\n" cks ++ "\n")

/-- Per-turn prompt assembly (main.rs:215-221). -/
def turnPrompt (a : AgentM) (ctx hist : String) : String :=
  "YOUR ROLE:\n" ++ a.systemPrompt ++ "\n\n" ++ ctx
    ++ "\n\nCONVERSATION HISTORY:\n---\n" ++ hist
    ++ "\n---\n\nINSTRUCTIONS: Your name is " ++ a.name
    ++ ". Based on your role and the history, provide your response. Do NOT include your name or role in the response itself. Just give your conversational reply."

/-- History append after a completed turn (main.rs:243-247):
`push_str(format!("\n\n{name}: {response.trim()}"))`. -/
def appendTurn (hist name resp : String) : String :=
  hist ++ "\n\n" ++ name ++ ": " ++ resp.trim

/-- Rendering of one committed (speaker, trimmed response) ghost-log entry
onto a history string; by construction `appendTurn hist name resp`
equals `renderEntry hist (name, resp.trim)`. -/
def renderEntry (h : String) (e : String × String) : String :=
  h ++ "\n\n" ++ e.1 ++ ": " ++ e.2

/-- The turn loop of `run_converse` (main.rs:191-248), instrumented with the
ghost log of committed (speaker, trimmed response) entries — exactly the
appends performed on `conversation_history` — and with the error of the
in-flight turn when one occurs.  `remaining` counts turns left, `i` is the
current turn index; the active agent is `agents[i % agents.len()]`
(main.rs:192-193).  A failure of the retrieval search (main.rs:204) or of
the model call / its delta stream (main.rs:229-240) stops the loop at once,
committing nothing for that turn. -/
def converseGo (agents : List AgentM) :
    Nat → Nat → String → List (String × String) →
      String × List (String × String) × Option String
  | 0, _i, hist, log => (hist, log, none)
  | remaining + 1, i, hist, log =>
    match contextStr (agents.getD (i % agents.length) default) hist with
    | Except.error e => (hist, log, some e)
    | Except.ok ctx =>
      match (agents.getD (i % agents.length) default).respond
          (turnPrompt (agents.getD (i % agents.length) default) ctx hist) with
      | Except.error e => (hist, log, some e)
      | Except.ok resp =>
        converseGo agents remaining (i + 1)
          (appendTurn hist (agents.getD (i % agents.length) default).name resp)
          (log ++ [((agents.getD (i % agents.length) default).name, resp.trim)])

/-- History seeded with the user's opening prompt (main.rs:185-188). -/
def initialHistory (prompt : String) : String :=
  "The user started the conversation with this prompt: \"" ++ prompt ++ "\""

/-- Model of `run_converse` (main.rs:152-252) after agent loading: run the loop for
`turns` turns from the seeded history.  A turn failure aborts the whole run
with that error (the `?` operator at main.rs:204/233/236); on success the
final history is returned for specification purposes (the Rust function
returns `Ok(())`, the local history being dropped). -/
def run_converse (agents : List AgentM) (turns : Nat) (prompt : String) :
    Except String String :=
  match converseGo agents turns 0 (initialHistory prompt) [] with
  | (_, _, some e) => Except.error e
  | (hist, _, none) => Except.ok hist

end Aiterm

namespace Aiterm

/-! Section: Chunker lemmas -/

/-- Dropping `overlap` characters from each chunk of the loop and
concatenating yields the input from position `start + overlap` on: the loop
re-covers exactly `overlap` characters at each step. -/
theorem chunkLoop_flatten_drop (text : List α) (M O : Nat) (hO : O < M) (fuel : Nat) :
    ∀ start : Nat, start < text.length → text.length - start ≤ fuel →
      ((chunkLoop text M O start fuel).map (fun c => c.drop O)).flatten
        = text.drop (start + O) := by
  induction fuel with
  | zero => intro start hs hf; omega
  | succ fuel ih =>
    intro start hs hf
    rw [chunkLoop, if_pos hs]
    by_cases he : min (start + M) text.length = text.length
    · rw [he, if_pos rfl]
      simp only [List.map_cons, List.map_nil, List.flatten_cons, List.flatten_nil,
        List.append_nil]
      have htake : (text.drop start).take (text.length - start) = text.drop start :=
        List.take_of_length_le (by rw [List.length_drop])
      rw [htake, List.drop_drop]
    · have hlt : start + M < text.length := by
        rcases Nat.lt_or_ge (start + M) text.length with h | h
        · exact h
        · exact absurd (Nat.min_eq_right h) he
      have harg : min (start + M) text.length - start = M := by omega
      have hs' : start + (M - O) < text.length := by omega
      have hf' : text.length - (start + (M - O)) ≤ fuel := by omega
      simp only [he, if_false, harg, List.map_cons, List.flatten_cons]
      rw [ih (start + (M - O)) hs' hf']
      have hidx : start + (M - O) + O = start + O + (M - O) := by omega
      rw [hidx, ← List.drop_drop, List.drop_take, List.drop_drop]
      exact List.take_append_drop _ _

/-- The first chunk of the loop, followed by the later chunks with their
first `overlap` characters removed, concatenates to the input from position
`start` on: the loop covers `[start, len)` with no gaps. -/
theorem chunkLoop_cover (text : List α) (M O : Nat) (hO : O < M) (fuel : Nat)
    (start : Nat) (hs : start < text.length) (hf : text.length - start ≤ fuel) :
    (chunkLoop text M O start fuel).headD []
      ++ (((chunkLoop text M O start fuel).tail).map (fun c => c.drop O)).flatten
      = text.drop start := by
  match fuel with
  | 0 => omega
  | fuel + 1 =>
    rw [chunkLoop, if_pos hs]
    by_cases he : min (start + M) text.length = text.length
    · rw [he, if_pos rfl]
      simp only [List.headD_cons, List.tail_cons, List.map_nil, List.flatten_nil,
        List.append_nil]
      exact List.take_of_length_le (by rw [List.length_drop])
    · have hlt : start + M < text.length := by
        rcases Nat.lt_or_ge (start + M) text.length with h | h
        · exact h
        · exact absurd (Nat.min_eq_right h) he
      have harg : min (start + M) text.length - start = M := by omega
      have hs' : start + (M - O) < text.length := by omega
      have hf' : text.length - (start + (M - O)) ≤ fuel := by omega
      simp only [he, if_false, harg, List.headD_cons, List.tail_cons]
      rw [chunkLoop_flatten_drop text M O hO fuel (start + (M - O)) hs' hf']
      have hidx : start + (M - O) + O = start + M := by omega
      rw [hidx, ← List.drop_drop, List.take_append_drop]

/-- Closed form for the `i`-th chunk of the loop: it is the window of width
(at most) `M` starting at byte.. position `start + i*(M - O)`. -/
theorem chunkLoop_getD (text : List α) (M O : Nat) (hO : O < M) (fuel : Nat) :
    ∀ start i : Nat, start < text.length → text.length - start ≤ fuel →
      i < (chunkLoop text M O start fuel).length →
      (chunkLoop text M O start fuel).getD i []
        = (text.drop (start + i * (M - O))).take
            (min (start + i * (M - O) + M) text.length - (start + i * (M - O))) := by
  induction fuel with
  | zero => intro start i hs hf _; omega
  | succ fuel ih =>
    intro start i hs hf hi
    rw [chunkLoop, if_pos hs]
    by_cases he : min (start + M) text.length = text.length
    · rw [chunkLoop, if_pos hs, he, if_pos rfl] at hi
      simp only [List.length_cons, List.length_nil] at hi
      have hi0 : i = 0 := by omega
      subst hi0
      simp [he]
    · match i with
      | 0 =>
        simp
      | i + 1 =>
        rw [chunkLoop, if_pos hs, if_neg he] at hi
        simp only [List.length_cons] at hi
        have hlt : start + M < text.length := by
          rcases Nat.lt_or_ge (start + M) text.length with h | h
          · exact h
          · exact absurd (Nat.min_eq_right h) he
        have hs' : start + (M - O) < text.length := by omega
        have hf' : text.length - (start + (M - O)) ≤ fuel := by omega
        simp only [he, if_false, List.getD_cons_succ]
        rw [ih (start + (M - O)) i hs' hf' (by omega)]
        have hidx : start + (M - O) + i * (M - O) = start + (i + 1) * (M - O) := by
          rw [Nat.succ_mul]; omega
        rw [hidx]

/-- Every chunk of the loop except the last ends strictly before the end of
the text: its window `[s, s + M)` satisfies `s + M < len`. -/
theorem chunkLoop_window_lt (text : List α) (M O : Nat) (hO : O < M) (fuel : Nat) :
    ∀ start i : Nat, start < text.length → text.length - start ≤ fuel →
      i + 1 < (chunkLoop text M O start fuel).length →
      start + i * (M - O) + M < text.length := by
  induction fuel with
  | zero => intro start i hs hf _; omega
  | succ fuel ih =>
    intro start i hs hf hi
    rw [chunkLoop, if_pos hs] at hi
    by_cases he : min (start + M) text.length = text.length
    · rw [he, if_pos rfl] at hi
      simp only [List.length_cons, List.length_nil] at hi
      omega
    · rw [if_neg he] at hi
      simp only [List.length_cons] at hi
      have hlt : start + M < text.length := by
        rcases Nat.lt_or_ge (start + M) text.length with h | h
        · exact h
        · exact absurd (Nat.min_eq_right h) he
      match i with
      | 0 => simpa using hlt
      | i + 1 =>
        have hs' : start + (M - O) < text.length := by omega
        have hf' : text.length - (start + (M - O)) ≤ fuel := by omega
        have := ih (start + (M - O)) i hs' hf' (by omega)
        have hidx : start + (M - O) + i * (M - O) = start + (i + 1) * (M - O) := by
          rw [Nat.succ_mul]; omega
        omega

/-- Windowing properties of the chunker core at item granularity (helper
for the amended C1 below, which transports them to the byte-faithful model
on single-byte texts): coverage of `[0, L)` with no gaps, exact overlap O
between consecutive chunks, non-last chunks of length exactly M, the
single-chunk case for `L ≤ M`, and the concrete ASCII example. -/
theorem chunk_text_char_spec (text : List Char) (M O : Nat) (hO : O < M) :
    (text.length ≤ M → chunk_text text M O = [text]) ∧
    chunk_text text M O ≠ [] ∧
    ((chunk_text text M O).headD []
      ++ (((chunk_text text M O).tail).map (fun c => c.drop O)).flatten = text) ∧
    (∀ i : Nat, i + 1 < (chunk_text text M O).length →
      ((chunk_text text M O).getD i []).length = M) ∧
    (∀ i : Nat, i + 1 < (chunk_text text M O).length →
      ((chunk_text text M O).getD (i + 1) []).take O
        = ((chunk_text text M O).getD i []).drop (M - O)) ∧
    chunk_text "abcdefghij".toList 4 1
      = ["abcd".toList, "defg".toList, "ghij".toList] := by
  by_cases hsmall : text.length ≤ M
  · refine ⟨fun _ => by rw [chunk_text, if_pos hsmall], ?_, ?_, ?_, ?_, by decide⟩
    · rw [chunk_text, if_pos hsmall]; exact List.cons_ne_nil _ _
    · rw [chunk_text, if_pos hsmall]; simp
    · intro i hi
      rw [chunk_text, if_pos hsmall] at hi
      simp only [List.length_cons, List.length_nil] at hi
      omega
    · intro i hi
      rw [chunk_text, if_pos hsmall] at hi
      simp only [List.length_cons, List.length_nil] at hi
      omega
  · have h0 : 0 < text.length := by omega
    have hfuel : text.length - 0 ≤ text.length + 1 := by omega
    refine ⟨fun h => absurd h hsmall, ?_, ?_, ?_, ?_, by decide⟩
    · rw [chunk_text, if_neg hsmall]
      rw [chunkLoop, if_pos h0]
      exact List.cons_ne_nil _ _
    · rw [chunk_text, if_neg hsmall]
      have := chunkLoop_cover text M O hO (text.length + 1) 0 h0 hfuel
      simpa using this
    · intro i hi
      rw [chunk_text, if_neg hsmall] at hi ⊢
      have hw := chunkLoop_window_lt text M O hO (text.length + 1) 0 i h0 hfuel hi
      have hg := chunkLoop_getD text M O hO (text.length + 1) 0 i h0 hfuel (by omega)
      rw [hg, List.length_take, List.length_drop]
      omega
    · intro i hi
      rw [chunk_text, if_neg hsmall] at hi ⊢
      have hw := chunkLoop_window_lt text M O hO (text.length + 1) 0 i h0 hfuel hi
      have hg0 := chunkLoop_getD text M O hO (text.length + 1) 0 i h0 hfuel (by omega)
      have hg1 := chunkLoop_getD text M O hO (text.length + 1) 0 (i + 1) h0 hfuel hi
      have hmul : (i + 1) * (M - O) = i * (M - O) + (M - O) := Nat.succ_mul i (M - O)
      rw [hg0, hg1, hmul]
      generalize i * (M - O) = k at hw ⊢
      have hmin0 : min (0 + k + M) text.length - (0 + k) = M := by omega
      rw [hmin0, List.drop_take, List.drop_drop, List.take_take]
      have hminO : min O (min (0 + (k + (M - O)) + M) text.length - (0 + (k + (M - O)))) = O := by
        omega
      have hsub : M - (M - O) = O := by omega
      rw [hminO, hsub]
      have hidx : 0 + (k + (M - O)) = 0 + k + (M - O) := by omega
      rw [hidx]

/-- Byte length of a single-byte-character list equals its character
count. -/
theorem utf8Len_eq_length (l : List Char) (h : ∀ c ∈ l, c.utf8Size = 1) :
    utf8Len l = l.length := by
  induction l with
  | nil => rfl
  | cons c rest ih =>
    have hc : c.utf8Size = 1 := h c (by simp)
    have ih' := ih (fun x hx => h x (by simp [hx]))
    simp only [utf8Len, List.map_cons, List.sum_cons, List.length_cons] at ih' ⊢
    omega

/-- On single-byte-character text, dropping `n` bytes is dropping `n`
characters and never hits a boundary panic. -/
theorem byteDrop_single_byte (l : List Char) (h : ∀ c ∈ l, c.utf8Size = 1) :
    ∀ n : Nat, n ≤ l.length → byteDrop l n = some (l.drop n) := by
  induction l with
  | nil =>
    intro n hn
    have hn0 : n = 0 := by simpa using hn
    subst hn0
    rfl
  | cons c rest ih =>
    intro n hn
    match n with
    | 0 => rfl
    | n + 1 =>
      rw [byteDrop]
      have hc : c.utf8Size = 1 := h c (by simp)
      rw [if_pos (by omega)]
      have he : n + 1 - c.utf8Size = n := by omega
      rw [he]
      simp only [List.drop_succ_cons]
      exact ih (fun x hx => h x (by simp [hx])) n
        (by simp only [List.length_cons] at hn; omega)

/-- On single-byte-character text, taking `n` bytes is taking `n`
characters and never hits a boundary panic. -/
theorem byteTake_single_byte (l : List Char) (h : ∀ c ∈ l, c.utf8Size = 1) :
    ∀ n : Nat, n ≤ l.length → byteTake l n = some (l.take n) := by
  induction l with
  | nil =>
    intro n hn
    have hn0 : n = 0 := by simpa using hn
    subst hn0
    rfl
  | cons c rest ih =>
    intro n hn
    match n with
    | 0 => rfl
    | n + 1 =>
      rw [byteTake]
      have hc : c.utf8Size = 1 := h c (by simp)
      rw [if_pos (by omega)]
      have he : n + 1 - c.utf8Size = n := by omega
      rw [he]
      rw [ih (fun x hx => h x (by simp [hx])) n
        (by simp only [List.length_cons] at hn; omega)]
      rfl

/-- On single-byte-character text, the byte slice is the character slice. -/
theorem byteSlice_single_byte (l : List Char) (h : ∀ c ∈ l, c.utf8Size = 1)
    (s e : Nat) (hs : s ≤ l.length) (he : e ≤ l.length) :
    byteSlice l s e = some ((l.drop s).take (e - s)) := by
  rw [byteSlice, byteDrop_single_byte l h s hs]
  exact byteTake_single_byte (l.drop s) (fun x hx => h x (List.mem_of_mem_drop hx)) (e - s)
    (by rw [List.length_drop]; omega)

/-- On single-byte-character text the byte-faithful chunker loop never
panics and produces exactly the character-level loop's chunks. -/
theorem chunkUtf8Loop_single_byte (text : List Char) (M O : Nat)
    (h : ∀ c ∈ text, c.utf8Size = 1) :
    ∀ fuel start : Nat,
      chunkUtf8Loop text M O start fuel = some (chunkLoop text M O start fuel) := by
  have hlen : utf8Len text = text.length := utf8Len_eq_length text h
  intro fuel
  induction fuel with
  | zero => intro start; rfl
  | succ fuel ih =>
    intro start
    rw [chunkUtf8Loop, chunkLoop, hlen]
    by_cases hs : start < text.length
    · rw [if_pos hs, if_pos hs]
      have hslice := byteSlice_single_byte text h start (min (start + M) text.length)
        (by omega) (by omega)
      simp only [hslice]
      by_cases he : min (start + M) text.length = text.length
      · rw [if_pos he, if_pos he]
      · rw [if_neg he, if_neg he, ih]
        rfl
    · rw [if_neg hs, if_neg hs]

/-- On single-byte-character text the program's byte-level `chunk_text`
does not panic and returns exactly the character-level chunks. -/
theorem chunk_text_utf8_single_byte (text : List Char) (M O : Nat)
    (h : ∀ c ∈ text, c.utf8Size = 1) :
    chunk_text_utf8 text M O = some (chunk_text text M O) := by
  have hlen : utf8Len text = text.length := utf8Len_eq_length text h
  rw [chunk_text_utf8, chunk_text, hlen]
  by_cases hsmall : text.length ≤ M
  · rw [if_pos hsmall, if_pos hsmall]
  · rw [if_neg hsmall, if_neg hsmall]
    exact chunkUtf8Loop_single_byte text M O h (text.length + 1) 0

/-- C1 (counterexample to the claim as stated): the claim quantifies over
*every* input text, but on the in-domain input "aé" (3 UTF-8 bytes) with
max_size 2 and overlap 1 the program computes `end = min(0+2, 3) = 2`, a
byte offset inside the two-byte character é, and `text[0..2]` panics — the
byte-faithful model returns `none` — so no chunking output with the claimed
coverage properties exists for this input. -/
theorem chunk_text_c1_panics : chunk_text_utf8 "aé".toList 2 1 = none := by
  decide

/-- C1 (amended): restricted to texts of single-byte characters — where the
program's byte offsets coincide with character offsets, the minimal domain
on which the claim's character-phrased properties can hold (elsewhere the
program panics, per the counterexample and C8, or measures windows in
bytes) — the byte-faithful chunker returns exactly the character-level
chunks, and for every max_size M and overlap O with O < M these fully cover
`[0, L)` left-to-right with no gaps; consecutive chunks overlap by exactly
O characters (the first O characters of chunk i+1 are the last O characters
of chunk i, every non-last chunk having length exactly M); if `L ≤ M`
exactly one chunk equal to the whole input is returned; and on
"abcdefghij" with max_size 4 and overlap 1 the program yields
`["abcd", "defg", "ghij"]`. -/
theorem chunk_text_spec_single_byte (text : List Char) (M O : Nat) (hO : O < M)
    (hsb : ∀ c ∈ text, c.utf8Size = 1) :
    chunk_text_utf8 text M O = some (chunk_text text M O) ∧
    (text.length ≤ M → chunk_text text M O = [text]) ∧
    chunk_text text M O ≠ [] ∧
    ((chunk_text text M O).headD []
      ++ (((chunk_text text M O).tail).map (fun c => c.drop O)).flatten = text) ∧
    (∀ i : Nat, i + 1 < (chunk_text text M O).length →
      ((chunk_text text M O).getD i []).length = M) ∧
    (∀ i : Nat, i + 1 < (chunk_text text M O).length →
      ((chunk_text text M O).getD (i + 1) []).take O
        = ((chunk_text text M O).getD i []).drop (M - O)) ∧
    chunk_text_utf8 "abcdefghij".toList 4 1
      = some ["abcd".toList, "defg".toList, "ghij".toList] := by
  obtain ⟨h1, h2, h3, h4, h5, _⟩ := chunk_text_char_spec text M O hO
  exact ⟨chunk_text_utf8_single_byte text M O hsb, h1, h2, h3, h4, h5, by decide⟩

/-- Witness for `chunk_text_spec_single_byte`: concrete instance at the
single-byte text "abc", max_size 4, overlap 1 (the one-chunk case, with the
no-panic bridge). -/
theorem chunk_text_spec_single_byte_witness :
    (1 : Nat) < 4 ∧ (∀ c ∈ "abc".toList, c.utf8Size = 1) ∧
      chunk_text_utf8 "abc".toList 4 1 = some (chunk_text "abc".toList 4 1) ∧
      chunk_text "abc".toList 4 1 = ["abc".toList] := by
  have h := chunk_text_spec_single_byte "abc".toList 4 1 (by decide) (by decide)
  exact ⟨by decide, by decide, h.1, h.2.1 (by decide)⟩

/-- C8 (refuting the claim on the code as written): chunk boundaries are
*byte* offsets; on the two-character text "éé" (4 bytes) with max_size 3 and
overlap 1, the first window is `text[0..3]` and byte 3 falls inside the
second two-byte character, so Rust panics — modelled here by the
byte-faithful chunker returning `none` instead of a chunk list. -/
theorem chunk_text_utf8_splits_char : chunk_text_utf8 "éé".toList 3 1 = none := by
  decide

/-! Section: Stream decoder lemmas -/

theorem depthSum_nil : depthSum [] = 0 := rfl

theorem depthSum_cons (c : Char) (l : List Char) :
    depthSum (c :: l) = braceDelta c + depthSum l := by
  simp [depthSum]

/-- The brace scan only ever reports an end offset beyond its start. -/
theorem scanBalance_gt (l : List Char) :
    ∀ (o : Int) (i j : Nat), scanBalance l o i = some j → i < j := by
  induction l with
  | nil => intro o i j h; simp [scanBalance] at h
  | cons c rest ih =>
    intro o i j h
    rw [scanBalance] at h
    by_cases hz : o + braceDelta c = 0
    · rw [if_pos hz] at h
      injection h with h
      omega
    · rw [if_neg hz] at h
      have := ih _ _ _ h
      omega

/-- The brace scan succeeds exactly at the first offset where the
accumulated depth returns to zero. -/
theorem scanBalance_eq_some (l : List Char) :
    ∀ (o : Int) (i j : Nat), 0 < j → j ≤ l.length →
      o + depthSum (l.take j) = 0 →
      (∀ k : Nat, 0 < k → k < j → o + depthSum (l.take k) ≠ 0) →
      scanBalance l o i = some (i + j) := by
  induction l with
  | nil => intro o i j hj hjl _ _; simp at hjl; omega
  | cons c rest ih =>
    intro o i j hj hjl hz hmin
    rw [scanBalance]
    by_cases hj1 : j = 1
    · subst hj1
      have ht : (c :: rest).take 1 = [c] := rfl
      rw [ht, depthSum_cons, depthSum_nil] at hz
      have h1 : o + braceDelta c = 0 := by omega
      rw [if_pos h1]
    · have hne : o + braceDelta c ≠ 0 := by
        have h1 := hmin 1 (by omega) (by omega)
        have ht : (c :: rest).take 1 = [c] := rfl
        rw [ht, depthSum_cons, depthSum_nil] at h1
        omega
      rw [if_neg hne]
      have htake : ∀ m : Nat, (c :: rest).take (m + 1) = c :: rest.take m := fun _ => rfl
      have hz' : (o + braceDelta c) + depthSum (rest.take (j - 1)) = 0 := by
        have hjj : j = (j - 1) + 1 := by omega
        rw [hjj, htake, depthSum_cons] at hz
        omega
      have hmin' : ∀ k : Nat, 0 < k → k < j - 1 →
          (o + braceDelta c) + depthSum (rest.take k) ≠ 0 := by
        intro k hk hk2
        have h1 := hmin (k + 1) (by omega) (by omega)
        rw [htake, depthSum_cons] at h1
        omega
      have hjl' : j - 1 ≤ rest.length := by
        simp only [List.length_cons] at hjl
        omega
      have h := ih (o + braceDelta c) (i + 1) (j - 1) (by omega) hjl' hz' hmin'
      rw [h]
      congr 1
      omega

/-- The brace scan fails when the accumulated depth never returns to zero. -/
theorem scanBalance_eq_none (l : List Char) :
    ∀ (o : Int) (i : Nat),
      (∀ k : Nat, 0 < k → k ≤ l.length → o + depthSum (l.take k) ≠ 0) →
      scanBalance l o i = none := by
  induction l with
  | nil => intro o i _; rfl
  | cons c rest ih =>
    intro o i hmin
    rw [scanBalance]
    have hne : o + braceDelta c ≠ 0 := by
      have h1 := hmin 1 (by omega) (by simp only [List.length_cons]; omega)
      have ht : (c :: rest).take 1 = [c] := rfl
      rw [ht, depthSum_cons, depthSum_nil] at h1
      omega
    rw [if_neg hne]
    apply ih
    intro k hk hkl
    have h1 := hmin (k + 1) (by omega) (by simp only [List.length_cons]; omega)
    have ht : (c :: rest).take (k + 1) = c :: rest.take k := rfl
    rw [ht, depthSum_cons] at h1
    omega

theorem findLbrace_cons_lbrace (l : List Char) : findLbrace (lbrace :: l) = some 0 := by
  simp [findLbrace]

/-- A balanced object has at least two characters. -/
theorem balanced_two_le (w : List Char) (hw : IsBalancedObject w) : 2 ≤ w.length := by
  obtain ⟨hne, hhead, hz, _⟩ := hw
  match w, hne with
  | [c], _ =>
    simp only [List.head?_cons, Option.some.injEq] at hhead
    subst hhead
    rw [depthSum_cons, depthSum_nil] at hz
    have hd : braceDelta lbrace = 1 := by decide
    omega
  | c1 :: c2 :: rest, _ => simp only [List.length_cons]; omega

/-- A balanced object starts with the opening brace. -/
theorem balanced_head (w : List Char) (hw : IsBalancedObject w) : ∃ w', w = lbrace :: w' := by
  obtain ⟨hne, hhead, _, _⟩ := hw
  match w, hne with
  | c :: w', _ =>
    simp only [List.head?_cons, Option.some.injEq] at hhead
    exact ⟨w', by rw [hhead]⟩

/-- A truncated object starts with the opening brace. -/
theorem truncated_head (u : List Char) (hu : IsTruncatedObject u) : ∃ u', u = lbrace :: u' := by
  obtain ⟨hne, hhead, _⟩ := hu
  match u, hne with
  | c :: u', _ =>
    simp only [List.head?_cons, Option.some.injEq] at hhead
    exact ⟨u', by rw [hhead]⟩

/-- Fuel irrelevance for the inner decoder loop: any fuel strictly larger
than the buffer length yields the same result. -/
theorem processBuffer_fuel (parse : List Char → Option String) :
    ∀ (f : Nat) (b : List Char) (f' : Nat), b.length < f → b.length < f' →
      processBuffer parse b f = processBuffer parse b f' := by
  intro f
  induction f with
  | zero => intro b f' h _; omega
  | succ f1 ih =>
    intro b f' h h'
    match f', h' with
    | f2 + 1, h' =>
      rw [processBuffer, processBuffer]
      cases hfind : findLbrace b with
      | none => simp only [hfind]
      | some start =>
        cases hscan : scanBalance (b.drop start) 0 0 with
        | none => simp only [hfind, hscan]
        | some len =>
          simp only [hfind, hscan]
          have hb : b ≠ [] := by
            intro hb
            subst hb
            simp [findLbrace] at hfind
          have hlen1 : 1 ≤ len := by
            have := scanBalance_gt (b.drop start) 0 0 len hscan
            omega
          have hpos : 0 < b.length := List.length_pos.mpr hb
          have hdrop : (b.drop (start + len)).length < b.length := by
            rw [List.length_drop]
            omega
          have hrec := ih (b.drop (start + len)) f2 (by omega) (by omega)
          rw [hrec]

/-- Extraction step of the inner loop: a buffer beginning with a balanced
object emits that object's parse result and continues on the remainder. -/
theorem processBuffer_balanced (parse : List Char → Option String) (w r : List Char)
    (hw : IsBalancedObject w) (fuel : Nat) (hf : (w ++ r).length < fuel) :
    processBuffer parse (w ++ r) fuel
      = (emitOf (parse w) ++ (processBuffer parse r (r.length + 1)).1,
        (processBuffer parse r (r.length + 1)).2) := by
  obtain ⟨w', hw'⟩ := balanced_head w hw
  have h2 := balanced_two_le w hw
  match fuel, hf with
  | f + 1, hf =>
    have hfind : findLbrace (w ++ r) = some 0 := by
      rw [hw']
      exact findLbrace_cons_lbrace _
    have hscan : scanBalance (w ++ r) 0 0 = some w.length := by
      have h0 : (0 : Nat) + w.length = w.length := Nat.zero_add _
      rw [← h0]
      apply scanBalance_eq_some
      · omega
      · rw [List.length_append]; omega
      · rw [List.take_left, hw.2.2.1]; omega
      · intro k hk hkw
        rw [List.take_append_of_le_length (by omega)]
        have := hw.2.2.2 k (by omega) hk
        omega
    rw [processBuffer]
    simp only [hfind, List.drop_zero, hscan, Nat.zero_add, List.take_left, List.drop_left]
    have hrl : r.length < f := by
      rw [List.length_append] at hf
      omega
    have hrec : processBuffer parse r f = processBuffer parse r (r.length + 1) :=
      processBuffer_fuel parse f r (r.length + 1) hrl (by omega)
    rw [hrec]
    cases hp : parse w with
    | none => simp [emitOf]
    | some t =>
      by_cases ht : t = ""
      · simp [emitOf, ht]
      · simp [emitOf, ht]

/-- The inner loop leaves a truncated object in the buffer untouched,
awaiting more input. -/
theorem processBuffer_truncated (parse : List Char → Option String) (u : List Char)
    (hu : IsTruncatedObject u) (fuel : Nat) :
    processBuffer parse u (fuel + 1) = ([], u) := by
  obtain ⟨u', hu'⟩ := truncated_head u hu
  have hfind : findLbrace u = some 0 := by
    rw [hu']
    exact findLbrace_cons_lbrace _
  have hscan : scanBalance u 0 0 = none := by
    apply scanBalance_eq_none
    intro k hk hkl
    have := hu.2.2 k hkl hk
    omega
  rw [processBuffer]
  simp only [hfind, List.drop_zero, hscan]

/-- The inner loop clears an empty buffer. -/
theorem processBuffer_nil (parse : List Char → Option String) (fuel : Nat) :
    processBuffer parse [] (fuel + 1) = ([], []) := rfl

/-- A buffer holding exactly one balanced object emits its parse result and
drains completely. -/
theorem processBuffer_balanced_nil (parse : List Char → Option String) (w : List Char)
    (hw : IsBalancedObject w) (fuel : Nat) (hf : w.length < fuel) :
    processBuffer parse w fuel = (emitOf (parse w), []) := by
  have h := processBuffer_balanced parse w [] hw fuel (by simpa using hf)
  rw [List.append_nil] at h
  rw [h, processBuffer_nil]
  simp

/-- A proper non-empty prefix of a balanced object is a truncated object. -/
theorem balanced_take_truncated (w : List Char) (hw : IsBalancedObject w) (k : Nat)
    (h1 : 0 < k) (h2 : k < w.length) : IsTruncatedObject (w.take k) := by
  obtain ⟨w', hw'⟩ := balanced_head w hw
  refine ⟨?_, ?_, ?_⟩
  · have hl : (w.take k).length = k := by rw [List.length_take]; omega
    intro hnil
    rw [hnil] at hl
    simp only [List.length_nil] at hl
    omega
  · rw [hw']
    match k, h1 with
    | k' + 1, _ => rfl
  · intro j hjl hj
    have hl : (w.take k).length = k := by rw [List.length_take]; omega
    rw [hl] at hjl
    rw [List.take_take]
    have hmin : min j k = j := by omega
    rw [hmin]
    exact hw.2.2.2 j (by omega) hj

/-- Feeding the remaining characters of a balanced object one fragment at a
time, starting from a buffer holding a proper non-empty prefix, emits exactly
the object's parse result. -/
theorem feedAll_resume (parse : List Char → Option String) (w : List Char)
    (hw : IsBalancedObject w) :
    ∀ n k : Nat, w.length - k ≤ n → 0 < k → k < w.length →
      feedAll parse (w.take k) ((w.drop k).map (fun c => [c])) = emitOf (parse w) := by
  intro n
  induction n with
  | zero => intro k h hk hkw; omega
  | succ n ih =>
    intro k h hk hkw
    rw [List.drop_eq_getElem_cons hkw]
    simp only [List.map_cons]
    rw [feedAll]
    have hbuf : w.take k ++ [w[k]] = w.take (k + 1) := List.take_concat_get' w k hkw
    rw [hbuf]
    by_cases hend : k + 1 = w.length
    · rw [hend, List.take_length, List.drop_length]
      rw [processBuffer_balanced_nil parse w hw (w.length + 1) (by omega)]
      simp [feedAll]
    · have hk1 : k + 1 < w.length := by omega
      have htr := balanced_take_truncated w hw (k + 1) (by omega) hk1
      have hpb := processBuffer_truncated parse (w.take (k + 1)) htr ((w.take (k + 1)).length)
      rw [hpb]
      show [] ++ feedAll parse (w.take (k + 1)) ((w.drop (k + 1)).map (fun c => [c]))
        = emitOf (parse w)
      rw [List.nil_append]
      exact ih (k + 1) (by omega) (by omega) hk1

/-- Decoding a single balanced object in one fragment emits its parse
result. -/
theorem decodeStream_single (parse : List Char → Option String) (w : List Char)
    (hw : IsBalancedObject w) :
    decodeStream parse [w] = emitOf (parse w) := by
  have h2 := balanced_two_le w hw
  rw [decodeStream, feedAll]
  simp only [List.nil_append]
  rw [processBuffer_balanced_nil parse w hw (w.length + 1) (by omega)]
  simp [feedAll]

/-- C4 (amended): for every parse function and every well-formed object,
feeding the object one *character* per arriving fragment produces the same
decoded output as feeding it as a single fragment.  (At byte granularity the
original claim fails — see the counterexample — because each fragment is
decoded lossily on arrival.) -/
theorem stream_decoder_char_per_fragment (parse : List Char → Option String)
    (w : List Char) (hw : IsBalancedObject w) :
    decodeStream parse (w.map (fun c => [c])) = decodeStream parse [w] := by
  obtain ⟨w', hw'⟩ := balanced_head w hw
  have h2 := balanced_two_le w hw
  rw [decodeStream_single parse w hw]
  rw [decodeStream]
  have hmap : w.map (fun c => [c]) = [lbrace] :: w'.map (fun c => [c]) := by
    rw [hw']
    simp
  rw [hmap, feedAll]
  have hb1 : ([] : List Char) ++ [lbrace] = w.take 1 := by
    rw [hw']
    rfl
  rw [hb1]
  have h1w : 1 < w.length := by omega
  have htr := balanced_take_truncated w hw 1 (by omega) h1w
  have hpb := processBuffer_truncated parse (w.take 1) htr ((w.take 1).length)
  rw [hpb]
  show [] ++ feedAll parse (w.take 1) (w'.map (fun c => [c])) = emitOf (parse w)
  rw [List.nil_append]
  have hdrop1 : w.drop 1 = w' := by rw [hw']; rfl
  rw [← hdrop1]
  exact feedAll_resume parse w hw w.length 1 (by omega) (by omega) h1w

/-- Witness for `stream_decoder_char_per_fragment` at the object `{a}` with
a concrete parse function. -/
theorem stream_decoder_char_per_fragment_witness :
    IsBalancedObject [lbrace, 'a', rbrace] ∧
      decodeStream parseCex ([lbrace, 'a', rbrace].map (fun c => [c]))
        = decodeStream parseCex [[lbrace, 'a', rbrace]] :=
  ⟨by decide, stream_decoder_char_per_fragment parseCex [lbrace, 'a', rbrace] (by decide)⟩

/-- C4 (counterexample to the claim as stated): feeding the bytes of the
well-formed object `{é}` one byte per fragment does not produce the same
decoded text as feeding the object whole: the two bytes of `é` arrive in
separate fragments, each is decoded lossily to U+FFFD (gemini.rs:109), and
the parsed text of the extracted slice differs. -/
theorem stream_decoder_byte_split_differs :
    decodeByteStream parseLossyCex [[123, 195, 169, 125]] = ["é"] ∧
      decodeByteStream parseLossyCex [[123], [195], [169], [125]]
        = [String.mk [replacementChar, replacementChar]] ∧
      ("é" : String) ≠ String.mk [replacementChar, replacementChar] := by
  refine ⟨by decide, by decide, by decide⟩

/-- C5: object-level problems never fail the stream decode: a balanced slice
whose parse fails is discarded silently and decoding continues (a malformed
object between two valid ones still yields both valid deltas), and a
truncated object left in the buffer at stream end is dropped, yielding zero
deltas for it and no error (the decoder is a total function). -/
theorem stream_decoder_discards (parse : List Char → Option String)
    (v1 m v2 u : List Char) (t1 t2 : String)
    (hv1 : IsBalancedObject v1) (hm : IsBalancedObject m) (hv2 : IsBalancedObject v2)
    (hu : IsTruncatedObject u)
    (hp1 : parse v1 = some t1) (ht1 : t1 ≠ "")
    (hp2 : parse v2 = some t2) (ht2 : t2 ≠ "")
    (hpm : parse m = none) :
    decodeStream parse [v1 ++ m ++ v2] = [t1, t2] ∧
      decodeStream parse [v1, u] = [t1] := by
  have h1 : processBuffer parse v1 (v1.length + 1) = ([t1], []) := by
    rw [processBuffer_balanced_nil parse v1 hv1 _ (by omega), hp1]
    simp [emitOf, ht1]
  constructor
  · rw [decodeStream, feedAll]
    simp only [List.nil_append, List.append_assoc]
    rw [processBuffer_balanced parse v1 (m ++ v2) hv1 _ (by omega)]
    rw [processBuffer_balanced parse m v2 hm _ (by omega)]
    rw [processBuffer_balanced_nil parse v2 hv2 _ (by omega)]
    rw [hp1, hpm, hp2]
    simp [emitOf, ht1, ht2, feedAll]
  · rw [decodeStream, feedAll]
    simp only [List.nil_append]
    rw [h1]
    show [t1] ++ feedAll parse [] [u] = [t1]
    rw [feedAll]
    simp only [List.nil_append]
    rw [processBuffer_truncated parse u hu u.length]
    show [t1] ++ ([] ++ feedAll parse u []) = [t1]
    rw [feedAll]
    simp

/-- Witness for `stream_decoder_discards` at `{a}`, `{}` (parse fails),
`{b}` and the truncated `{{}`. -/
theorem stream_decoder_discards_witness :
    IsBalancedObject [lbrace, 'a', rbrace] ∧ IsBalancedObject [lbrace, rbrace] ∧
      IsBalancedObject [lbrace, 'b', rbrace] ∧
      IsTruncatedObject [lbrace, lbrace, rbrace] ∧
      decodeStream parseCex
          [[lbrace, 'a', rbrace] ++ [lbrace, rbrace] ++ [lbrace, 'b', rbrace]] = ["A", "B"] ∧
      decodeStream parseCex [[lbrace, 'a', rbrace], [lbrace, lbrace, rbrace]] = ["A"] := by
  have h := stream_decoder_discards parseCex [lbrace, 'a', rbrace] [lbrace, rbrace]
    [lbrace, 'b', rbrace] [lbrace, lbrace, rbrace] "A" "B"
    (by decide) (by decide) (by decide) (by decide)
    (by decide) (by decide) (by decide) (by decide) (by decide)
  exact ⟨by decide, by decide, by decide, by decide, h.1, h.2⟩

/-! Section: `ask` versus `ask_stream` -/

/-- The fold of `ask` on an all-ok item list concatenates the deltas in
order onto the accumulator. -/
theorem collectResponse_all_ok :
    ∀ (items : List (Except String String)) (acc : String),
      (∀ x ∈ items, x.isOk = true) →
      collectResponse acc items
        = Except.ok (items.foldl (fun a x => a ++ x.toOption.getD "") acc) := by
  intro items
  induction items with
  | nil => intro acc _; rfl
  | cons x rest ih =>
    intro acc hok
    match x with
    | Except.error e =>
      have h := hok (Except.error e) (by simp)
      simp [Except.isOk, Except.toBool] at h
    | Except.ok s =>
      rw [collectResponse]
      rw [ih (acc ++ s) (fun y hy => hok y (by simp [hy]))]
      simp [Except.toOption]

/-- The fold of `ask` signals failure whenever some item is an error. -/
theorem collectResponse_error :
    ∀ (items : List (Except String String)) (acc : String) (e : String),
      Except.error e ∈ items → (collectResponse acc items).isOk = false := by
  intro items
  induction items with
  | nil => intro acc e h; simp at h
  | cons x rest ih =>
    intro acc e h
    match x with
    | Except.error e' => rw [collectResponse]; rfl
    | Except.ok s =>
      rw [collectResponse]
      have hmem : Except.error e ∈ rest := by
        rcases List.mem_cons.mp h with h1 | h1
        · simp at h1
        · exact h1
      exact ih (acc ++ s) e hmem

/-- C10: the aggregate call `ask` refines the streaming call `ask_stream`
on the same messages (the same abstract transport): a setup error is
returned as-is; given the stream's items, `ask` returns exactly the
in-order concatenation of the deltas when every item is ok, and returns an
error exactly when some delta item is an error. -/
theorem ask_eq_concat_ask_stream (parse : List Char → Option String)
    (setup : Except String (List (Except String (List Char)))) :
    (∀ e, ask_stream parse setup = Except.error e → ask parse setup = Except.error e) ∧
    (∀ items, ask_stream parse setup = Except.ok items →
      ((∀ x ∈ items, x.isOk = true) →
        ask parse setup
          = Except.ok (items.foldl (fun a x => a ++ x.toOption.getD "") "")) ∧
      (∀ e, Except.error e ∈ items → (ask parse setup).isOk = false)) := by
  constructor
  · intro e he
    simp only [ask, he]
  · intro items hitems
    constructor
    · intro hok
      simp only [ask, hitems]
      exact collectResponse_all_ok items "" hok
    · intro e he
      simp only [ask, hitems]
      exact collectResponse_error items "" e he

/-- Witness for `ask_eq_concat_ask_stream`: a failed setup propagates. -/
theorem ask_eq_concat_ask_stream_witness :
    ask parseCex (Except.error "boom") = Except.error "boom" :=
  (ask_eq_concat_ask_stream parseCex (Except.error "boom")).1 "boom" rfl

/-! Section: Cosine similarity -/

/-- C9: cosine similarity is symmetric on equal-length vectors, returns
exactly 0 (never undefined) whenever either vector has zero norm, and in
particular returns 0 on any zero-vector input. -/
theorem cos_sim_props :
    (∀ a b : List ℝ, a.length = b.length → cos_sim a b = cos_sim b a) ∧
    (∀ a b : List ℝ,
      Real.sqrt ((a.map (fun x => x ^ 2)).sum) = 0 ∨
        Real.sqrt ((b.map (fun x => x ^ 2)).sum) = 0 →
      cos_sim a b = 0) ∧
    (∀ (n : Nat) (b : List ℝ), cos_sim (List.replicate n 0) b = 0) := by
  have hzip : ∀ a b : List ℝ,
      ((a.zip b).map (fun p => p.1 * p.2)).sum
        = ((b.zip a).map (fun p => p.1 * p.2)).sum := by
    intro a
    induction a with
    | nil => intro b; cases b <;> simp
    | cons x xs ih =>
      intro b
      cases b with
      | nil => simp
      | cons y ys => simp [ih ys, mul_comm]
  refine ⟨?_, ?_, ?_⟩
  · intro a b _
    rw [cos_sim, cos_sim]
    by_cases ha : Real.sqrt ((a.map (fun x => x ^ 2)).sum) = 0 <;>
      by_cases hb : Real.sqrt ((b.map (fun x => x ^ 2)).sum) = 0
    · simp [ha, hb]
    · simp [ha, hb]
    · simp [ha, hb]
    · rw [if_neg (by simp [ha, hb]), if_neg (by simp [ha, hb])]
      rw [hzip a b, mul_comm]
  · intro a b h
    rw [cos_sim, if_pos h]
  · intro n b
    have hsq : ((0 : ℝ) ^ 2) = 0 := by norm_num
    have hnorm : Real.sqrt (((List.replicate n (0 : ℝ)).map (fun x => x ^ 2)).sum) = 0 := by
      rw [List.map_replicate, hsq, List.sum_replicate, smul_zero, Real.sqrt_zero]
    rw [cos_sim, if_pos (Or.inl hnorm)]

/-- Witness for `cos_sim_props`: symmetry and the zero-vector result at
concrete vectors. -/
theorem cos_sim_props_witness :
    cos_sim [1, 2] [3, 4] = cos_sim [3, 4] [1, 2] ∧
      cos_sim (List.replicate 1 (0 : ℝ)) [5] = 0 :=
  ⟨cos_sim_props.1 [1, 2] [3, 4] rfl, cos_sim_props.2.2 1 [5]⟩

/-! Section: Search: ordering, stability, length -/

/-- Inserting a scored chunk with `orderedInsert` under the descending-score
relation preserves the subsequence of any fixed score class, putting the new
element first in its own class: skipped elements have strictly larger
scores. -/
theorem orderedInsert_filter_score (a : ℝ × TextChunk) (s : List (ℝ × TextChunk)) (v : ℝ) :
    (List.orderedInsert (fun x y => y.1 ≤ x.1) a s).filter (fun x => decide (x.1 = v))
      = if a.1 = v then a :: s.filter (fun x => decide (x.1 = v))
        else s.filter (fun x => decide (x.1 = v)) := by
  induction s with
  | nil =>
    rw [List.orderedInsert]
    by_cases hv : a.1 = v <;> simp [List.filter, hv]
  | cons b s ih =>
    rw [List.orderedInsert]
    by_cases hr : b.1 ≤ a.1
    · rw [if_pos hr]
      by_cases hv : a.1 = v <;> simp [List.filter_cons, hv]
    · rw [if_neg hr]
      have hb : a.1 < b.1 := not_le.mp hr
      by_cases hv : a.1 = v
      · have hbv : ¬(b.1 = v) := by rw [← hv]; exact ne_of_gt hb
        rw [if_pos hv]
        simp [List.filter_cons, hbv, ih, hv]
      · rw [if_neg hv]
        simp [List.filter_cons, ih, hv]

/-- Stability of the sort of `search`: for every score value the
subsequence of elements carrying that score is unchanged — ties keep their
original insertion order. -/
theorem insertionSort_filter_score (l : List (ℝ × TextChunk)) (v : ℝ) :
    (List.insertionSort (fun x y => y.1 ≤ x.1) l).filter (fun x => decide (x.1 = v))
      = l.filter (fun x => decide (x.1 = v)) := by
  induction l with
  | nil => rfl
  | cons a l ih =>
    rw [List.insertionSort, orderedInsert_filter_score]
    by_cases hv : a.1 = v
    · rw [if_pos hv, ih, List.filter_cons]
      simp [hv]
    · rw [if_neg hv, ih, List.filter_cons]
      simp [hv]

/-- C3: for every store satisfying the length invariant and every query
embedding, `search` (a total function — no error case) returns exactly
`min(top_k, store size)` formatted snippets, taken from the scored list
sorted by non-increasing similarity with ties kept in original insertion
order (the subsequence of every score class is preserved); an empty store
yields the empty result for every query and every `top_k`. -/
theorem search_spec (embeddings : List (List ℝ)) (chunks : List TextChunk)
    (queryEmb : List ℝ) (topK : Nat)
    (hlen : embeddings.length = chunks.length) :
    (search embeddings chunks queryEmb topK).length = min topK chunks.length ∧
    List.Pairwise (fun x y : ℝ × TextChunk => y.1 ≤ x.1)
      (searchScored embeddings chunks queryEmb) ∧
    (∀ v : ℝ,
      (searchScored embeddings chunks queryEmb).filter (fun x => decide (x.1 = v))
        = (scoredChunks embeddings chunks queryEmb).filter (fun x => decide (x.1 = v))) ∧
    search embeddings chunks queryEmb topK
      = ((searchScored embeddings chunks queryEmb).take topK).map (fun p => formatSnippet p.2) ∧
    (chunks = [] → search embeddings chunks queryEmb topK = []) := by
  have hslen : (searchScored embeddings chunks queryEmb).length = chunks.length := by
    rw [searchScored]
    rw [(List.perm_insertionSort _ _).length_eq]
    rw [scoredChunks, List.length_map, List.length_zip, hlen]
    omega
  refine ⟨?_, ?_, ?_, ?_, ?_⟩
  · rw [search]
    by_cases he : chunks.isEmpty
    · rw [if_pos he]
      rw [List.isEmpty_iff] at he
      rw [he]
      simp
    · rw [if_neg he, List.length_map, List.length_take, hslen]
  · exact List.sorted_insertionSort _ _
  · intro v
    exact insertionSort_filter_score _ v
  · rw [search]
    by_cases he : chunks.isEmpty
    · rw [if_pos he]
      rw [List.isEmpty_iff] at he
      subst he
      rw [searchScored, scoredChunks]
      simp
    · rw [if_neg he]
  · intro he
    rw [search, if_pos (by rw [he]; rfl)]

/-- Witness for `search_spec`: the empty store. -/
theorem search_spec_witness :
    ([] : List (List ℝ)).length = ([] : List TextChunk).length ∧
      (search [] [] [] 5).length = min 5 ([] : List TextChunk).length :=
  ⟨rfl, (search_spec [] [] [] 5 rfl).1⟩

/-! Section: Store construction invariant -/

/-- C7: under the embedder-boundary contract (the batched call returns one
vector per input text, index-aligned), every store `ragStoreNew` builds
satisfies `chunks.length = embeddings.length`; and `search` leaves the
store it ran on unchanged (read-only access after construction). -/
theorem ragStore_invariant (embedBatch : List String → Except String (List (List ℝ)))
    (hcontract : ∀ ts es, embedBatch ts = Except.ok es → es.length = ts.length) :
    (∀ docs cs es, ragStoreNew embedBatch docs = Except.ok (cs, es) →
      cs.length = es.length) ∧
    (∀ (store : List (List ℝ) × List TextChunk) (queryEmb : List ℝ) (topK : Nat),
      (searchSt store queryEmb topK).2 = store) := by
  constructor
  · intro docs cs es h
    rw [ragStoreNew] at h
    by_cases he : (ragStoreChunks docs).isEmpty
    · rw [if_pos he] at h
      rw [List.isEmpty_iff] at he
      rw [he] at h
      injection h with h
      have h1 : ([] : List TextChunk) = cs := congrArg Prod.fst h
      have h2 : ([] : List (List ℝ)) = es := congrArg Prod.snd h
      rw [← h1, ← h2]
      rfl
    · rw [if_neg he] at h
      cases hemb : embedBatch ((ragStoreChunks docs).map (fun c => c.text)) with
      | error e => rw [hemb] at h; simp [Except.map] at h
      | ok es' =>
        rw [hemb] at h
        simp only [Except.map, Except.ok.injEq, Prod.mk.injEq] at h
        obtain ⟨h1, h2⟩ := h
        have hc := hcontract _ _ hemb
        rw [List.length_map] at hc
        rw [← h1, ← h2, hc]
  · intro store queryEmb topK
    rfl

/-- Witness for `ragStore_invariant`: the constant embedder satisfies the
contract, and a concrete search call leaves a concrete store unchanged. -/
theorem ragStore_invariant_witness :
    (∀ ts es, embedConst ts = Except.ok es → es.length = ts.length) ∧
      (searchSt (([], []) : List (List ℝ) × List TextChunk) [] 0).2
        = (([], []) : List (List ℝ) × List TextChunk) :=
  ⟨fun ts es h => by
      rw [embedConst] at h
      injection h with h
      rw [← h, List.length_map],
    (ragStore_invariant embedConst (fun ts es h => by
      rw [embedConst] at h
      injection h with h
      rw [← h, List.length_map])).2 (([], []) : List (List ℝ) × List TextChunk) [] 0⟩

/-! Section: Conversation loop -/

/-- An agent whose retrieval always succeeds produces a context block. -/
theorem contextStr_ok (a : AgentM) (hist : String)
    (h : ∀ r, a.retrieve = some r → ∀ s, (r s).isOk = true) :
    ∃ ctx, contextStr a hist = Except.ok ctx := by
  cases hret : a.retrieve with
  | none => exact ⟨"", by simp [contextStr, hret]⟩
  | some r =>
    cases hr : r hist with
    | error e =>
      have hok := h r hret hist
      rw [hr] at hok
      simp [Except.isOk, Except.toBool] at hok
    | ok cks =>
      refine ⟨if cks.isEmpty then "" else "CONTEXT:\n" ++ String.intercalate "\n" cks ++ "\n",
        ?_⟩
      simp [contextStr, hret, hr, Except.map]

/-- Success-path unrolling of the turn loop: when every agent's retrieval
and model calls succeed, the loop runs all remaining turns, committing one
(speaker, trimmed response) entry per turn, round robin from turn index
`i`, and the final history is the entries rendered in order. -/
theorem converseGo_success (agents : List AgentM) (hne : agents ≠ [])
    (hok : ∀ a ∈ agents, (∀ s, (a.respond s).isOk = true) ∧
      (∀ r, a.retrieve = some r → ∀ s, (r s).isOk = true)) :
    ∀ (n i : Nat) (hist : String) (log : List (String × String)),
      ∃ entries : List (String × String),
        converseGo agents n i hist log
            = (entries.foldl renderEntry hist, log ++ entries, none) ∧
          entries.length = n ∧
          (∀ j : Nat, j < n →
            (entries.getD j default).1
              = (agents.getD ((i + j) % agents.length) default).name) ∧
          (∀ j : Nat, j < n → ∃ p resp,
            (agents.getD ((i + j) % agents.length) default).respond p = Except.ok resp ∧
              (entries.getD j default).2 = resp.trim) := by
  have hlen : 0 < agents.length := List.length_pos.mpr hne
  intro n
  induction n with
  | zero =>
    intro i hist log
    exact ⟨[], by simp [converseGo], rfl, by omega, by omega⟩
  | succ n ih =>
    intro i hist log
    have hmem : agents.getD (i % agents.length) default ∈ agents := by
      rw [List.getD_eq_getElem agents default (Nat.mod_lt i hlen)]
      exact List.getElem_mem _
    obtain ⟨hresp_ok, hret_ok⟩ := hok _ hmem
    obtain ⟨ctx, hctx⟩ := contextStr_ok _ hist hret_ok
    have hro := hresp_ok (turnPrompt (agents.getD (i % agents.length) default) ctx hist)
    cases hresp : (agents.getD (i % agents.length) default).respond
        (turnPrompt (agents.getD (i % agents.length) default) ctx hist) with
    | error e => rw [hresp] at hro; simp [Except.isOk, Except.toBool] at hro
    | ok resp =>
      obtain ⟨entries, hgo, hel, hspk, hrsp⟩ :=
        ih (i + 1) (appendTurn hist (agents.getD (i % agents.length) default).name resp)
          (log ++ [((agents.getD (i % agents.length) default).name, resp.trim)])
      refine ⟨((agents.getD (i % agents.length) default).name, resp.trim) :: entries,
        ?_, ?_, ?_, ?_⟩
      · rw [converseGo]
        simp only [hctx, hresp]
        rw [hgo]
        simp only [List.foldl_cons, List.append_assoc, List.singleton_append]
        rfl
      · simp only [List.length_cons, hel]
      · intro j hj
        match j with
        | 0 => simp
        | j + 1 =>
          simp only [List.getD_cons_succ]
          have hs := hspk j (by omega)
          have hidx : i + 1 + j = i + (j + 1) := by omega
          rw [hidx] at hs
          exact hs
      · intro j hj
        match j with
        | 0 =>
          refine ⟨turnPrompt (agents.getD (i % agents.length) default) ctx hist, resp, ?_, rfl⟩
          simpa using hresp
        | j + 1 =>
          simp only [List.getD_cons_succ]
          have := hrsp j (by omega)
          have hidx : i + 1 + j = i + (j + 1) := by omega
          rw [hidx] at this
          exact this

/-- C2: with N ≥ 1 agents and every retrieval/model call succeeding, the
conversation loop runs exactly `turns` turns with no early exit: the ghost
log gains exactly `turns` entries, entry `i` attributes the turn's trimmed
response to agent `i mod N` (round robin from index 0), the final history is
the seeded history with all entries appended in order, and the next (unrun)
speaker — the attribution of the extra entry of the same run extended by one
turn — is agent `turns mod N`. -/
theorem run_converse_round_robin (agents : List AgentM) (turns : Nat) (prompt : String)
    (hne : agents ≠ [])
    (hok : ∀ a ∈ agents, (∀ s, (a.respond s).isOk = true) ∧
      (∀ r, a.retrieve = some r → ∀ s, (r s).isOk = true)) :
    ∃ entries : List (String × String),
      converseGo agents turns 0 (initialHistory prompt) []
          = (entries.foldl renderEntry (initialHistory prompt), entries, none) ∧
        run_converse agents turns prompt
          = Except.ok (entries.foldl renderEntry (initialHistory prompt)) ∧
        entries.length = turns ∧
        (∀ i : Nat, i < turns →
          (entries.getD i default).1 = (agents.getD (i % agents.length) default).name) ∧
        (∀ i : Nat, i < turns → ∃ p resp,
          (agents.getD (i % agents.length) default).respond p = Except.ok resp ∧
            (entries.getD i default).2 = resp.trim) ∧
        (∀ (hist1 : String) (entries1 : List (String × String)),
          converseGo agents (turns + 1) 0 (initialHistory prompt) []
              = (hist1, entries1, none) →
          (entries1.getD turns default).1
            = (agents.getD (turns % agents.length) default).name) := by
  obtain ⟨entries, hgo, hel, hspk, hrsp⟩ :=
    converseGo_success agents hne hok turns 0 (initialHistory prompt) []
  simp only [List.nil_append] at hgo
  refine ⟨entries, hgo, ?_, hel, ?_, ?_, ?_⟩
  · simp only [run_converse, hgo]
  · intro i hi
    simpa using hspk i hi
  · intro i hi
    simpa using hrsp i hi
  · intro hist1 entries1 h
    obtain ⟨entries', hgo', hel', hspk', _⟩ :=
      converseGo_success agents hne hok (turns + 1) 0 (initialHistory prompt) []
    simp only [List.nil_append] at hgo'
    rw [h] at hgo'
    have he : entries1 = entries' := congrArg (fun p => p.2.1) hgo'
    rw [he]
    simpa using hspk' turns (by omega)

/-- Witness for `run_converse_round_robin`: one always-succeeding agent,
two turns. -/
theorem run_converse_round_robin_witness :
    (run_converse [AgentM.mk "A" "sys" none (fun _ => Except.ok " hi ")] 2 "go").isOk
      = true := by
  obtain ⟨entries, _, hrun, _, _, _, _⟩ :=
    run_converse_round_robin [AgentM.mk "A" "sys" none (fun _ => Except.ok " hi ")] 2 "go"
      (by simp)
      (by
        intro a ha
        rw [List.mem_singleton] at ha
        subst ha
        exact ⟨fun _ => rfl, fun r hr => by cases hr⟩)
  rw [hrun]
  rfl

/-- Failure unrolling of the turn loop: when the loop stops with an error,
the committed entries are exactly those of the successful shorter run that
stops just before the failing turn. -/
theorem converseGo_failure (agents : List AgentM) :
    ∀ (n i : Nat) (hist : String) (log : List (String × String))
      (hist' : String) (log' : List (String × String)) (e : String),
      converseGo agents n i hist log = (hist', log', some e) →
      ∃ tail : List (String × String),
        log' = log ++ tail ∧ tail.length < n ∧
          converseGo agents tail.length i hist log = (hist', log', none) := by
  intro n
  induction n with
  | zero =>
    intro i hist log hist' log' e h
    simp [converseGo] at h
  | succ n ih =>
    intro i hist log hist' log' e h
    rw [converseGo] at h
    cases hctx : contextStr (agents.getD (i % agents.length) default) hist with
    | error e' =>
      rw [hctx] at h
      have h1 : hist = hist' := congrArg Prod.fst h
      have h2 : log = log' := congrArg (fun p => p.2.1) h
      exact ⟨[], by rw [← h2]; simp, by simp, by rw [← h1, ← h2]; simp [converseGo]⟩
    | ok ctx =>
      simp only [hctx] at h
      cases hresp : (agents.getD (i % agents.length) default).respond
          (turnPrompt (agents.getD (i % agents.length) default) ctx hist) with
      | error e' =>
        simp only [hresp] at h
        have h1 : hist = hist' := congrArg Prod.fst h
        have h2 : log = log' := congrArg (fun p => p.2.1) h
        exact ⟨[], by rw [← h2]; simp, by simp, by rw [← h1, ← h2]; simp [converseGo]⟩
      | ok resp =>
        simp only [hresp] at h
        obtain ⟨tail, htail, hlt, hrun⟩ := ih (i + 1)
          (appendTurn hist (agents.getD (i % agents.length) default).name resp)
          (log ++ [((agents.getD (i % agents.length) default).name, resp.trim)])
          hist' log' e h
        refine ⟨((agents.getD (i % agents.length) default).name, resp.trim) :: tail,
          ?_, by simp only [List.length_cons]; omega, ?_⟩
        · rw [htail]
          simp
        · simp only [List.length_cons]
          rw [converseGo]
          simp only [hctx, hresp]
          exact hrun

/-- C6: if the retrieval search or the model call of the in-flight turn
fails, the entire run aborts immediately with that error; the committed
ghost log is exactly the log of the successful run of the prior completed
turns — the in-flight turn appended nothing and the prior entries are
untouched — and fewer turns than requested ran (no retry). -/
theorem run_converse_abort (agents : List AgentM) (turns : Nat) (prompt : String)
    (hist' : String) (log' : List (String × String)) (e : String)
    (hfail : converseGo agents turns 0 (initialHistory prompt) [] = (hist', log', some e)) :
    run_converse agents turns prompt = Except.error e ∧
      log'.length < turns ∧
      converseGo agents log'.length 0 (initialHistory prompt) [] = (hist', log', none) := by
  obtain ⟨tail, htail, hlt, hrun⟩ :=
    converseGo_failure agents turns 0 (initialHistory prompt) [] hist' log' e hfail
  have hlen : log'.length = tail.length := by rw [htail]; simp
  refine ⟨?_, by omega, ?_⟩
  · simp only [run_converse, hfail]
  · rw [hlen]
    exact hrun

/-- Witness for `run_converse_abort`: an agent whose model call fails on the
first turn aborts the two-turn run with that error and an empty log. -/
theorem run_converse_abort_witness :
    run_converse [AgentM.mk "A" "sys" none (fun _ => Except.error "boom")] 2 "p"
      = Except.error "boom" :=
  (run_converse_abort [AgentM.mk "A" "sys" none (fun _ => Except.error "boom")] 2 "p"
    (initialHistory "p") [] "boom" rfl).1

end Aiterm
